import Mathlib

/-!
Verification of the font-play repository's naming and batching logic.

The definitions below are shallow embeddings of the Python sources:
  * scripts/normalize_font_names.py  (weight_to_name, derive_style_name,
    is_italic, is_bold, determine_output_extension, normalize_one_font, main)
  * scripts/convert_woff2_to_ttf.py  (extract_font_metadata's weight scan,
    convert_single_file, main)

Machine integers are modelled as Int/Nat; fallible operations (file parsing,
saving, directory checks) are modelled as explicit data on the abstract
input items; filesystem and console effects are modelled as an explicit
effect trace.
-/

set_option maxRecDepth 4000

/-! ## String helpers

Python `s.replace(" ", "")` and `s.strip()` modelled at the character-list
level (the strings manipulated by the scripts contain no whitespace other
than the space character). -/

/-- Python `s.replace(" ", "")`: remove every space character. -/
def stripSpaces (s : String) : String := ⟨s.data.filter (fun c => c ≠ ' ')⟩

/-- Python `s.strip()`: drop leading and trailing spaces. -/
def pyStrip (s : String) : String :=
  ⟨((s.data.dropWhile (fun c => c = ' ')).reverse.dropWhile (fun c => c = ' ')).reverse⟩

/-! ## Decimal rendering of the de-duplication counter

Python renders the counter with `f"...-{n}..."`, i.e. in decimal.  We embed
this with a fuel-based structurally recursive function so that the kernel
can evaluate it, and prove it injective via an explicit left inverse. -/

/-- Decimal digits (most significant first) of `n`, with recursion fuel. -/
def toDecDigits : Nat → Nat → List Char
  | 0, _ => []
  | fuel + 1, n =>
    if n < 10 then [Nat.digitChar n]
    else toDecDigits fuel (n / 10) ++ [Nat.digitChar (n % 10)]

/-- Decimal rendering of a natural number (Python `str(n)` / `f"{n}"`). -/
def natRepr (n : Nat) : String := ⟨toDecDigits (n + 1) n⟩

/-- Decimal rendering of an integer (Python `f"{i}"`). -/
def intRepr (i : Int) : String :=
  if i < 0 then "-" ++ natRepr i.natAbs else natRepr i.toNat

/-- Evaluation of a digit string back to a number: left inverse used to
prove `natRepr` injective. -/
def decVal (l : List Char) : Nat :=
  l.foldl (fun acc c => acc * 10 + (c.toNat - 48)) 0

theorem digitChar_val (m : Nat) (h : m < 10) : (Nat.digitChar m).toNat - 48 = m := by
  interval_cases m <;> rfl

theorem decVal_go_toDecDigits (fuel : Nat) :
    ∀ n, n < fuel → ∀ acc,
      (toDecDigits fuel n).foldl (fun acc c => acc * 10 + (c.toNat - 48)) acc =
        acc * 10 ^ (toDecDigits fuel n).length + n := by
  induction fuel with
  | zero => intro n hn; omega
  | succ fuel ih =>
    intro n hn acc
    by_cases h10 : n < 10
    · simp only [toDecDigits, if_pos h10, List.foldl_cons, List.foldl_nil,
        List.length_cons, List.length_nil, pow_one, digitChar_val n h10]
      ring
    · have hdiv : n / 10 < fuel := by
        have h1 : n / 10 < n := Nat.div_lt_self (by omega) (by omega)
        omega
      simp only [toDecDigits, if_neg h10, List.foldl_append, List.foldl_cons,
        List.foldl_nil, List.length_append, List.length_cons, List.length_nil]
      rw [ih (n / 10) hdiv acc]
      rw [digitChar_val (n % 10) (Nat.mod_lt n (by omega))]
      have hpow : 10 ^ ((toDecDigits fuel (n / 10)).length + (0 + 1)) =
          10 ^ (toDecDigits fuel (n / 10)).length * 10 := by
        rw [pow_succ]
      rw [hpow]
      have : n / 10 * 10 + n % 10 = n := by omega
      ring_nf
      omega

theorem decVal_natRepr (n : Nat) : decVal (natRepr n).data = n := by
  have h := decVal_go_toDecDigits (n + 1) n (Nat.lt_succ_self n) 0
  simpa [decVal, natRepr] using h

theorem natRepr_injective : Function.Injective natRepr := by
  intro a b h
  have : decVal (natRepr a).data = decVal (natRepr b).data := by rw [h]
  rwa [decVal_natRepr, decVal_natRepr] at this

theorem toDecDigits_no_hyphen (fuel : Nat) :
    ∀ n c, c ∈ toDecDigits fuel n → c ≠ '-' := by
  induction fuel with
  | zero => intro n c hc; simp [toDecDigits] at hc
  | succ fuel ih =>
    intro n c hc
    by_cases h10 : n < 10
    · simp only [toDecDigits, if_pos h10, List.mem_singleton] at hc
      subst hc
      have : ∀ m, m < 10 → Nat.digitChar m ≠ '-' := by decide
      exact this n h10
    · simp only [toDecDigits, if_neg h10, List.mem_append, List.mem_singleton] at hc
      rcases hc with hc | hc
      · exact ih (n / 10) c hc
      · subst hc
        have : ∀ m, m < 10 → Nat.digitChar m ≠ '-' := by decide
        exact this (n % 10) (Nat.mod_lt n (by omega))

theorem natRepr_no_hyphen (n : Nat) : '-' ∉ (natRepr n).data := by
  intro hmem
  exact toDecDigits_no_hyphen (n + 1) n '-' hmem rfl

/-! ## Font model

Abstraction of the `fontTools.ttLib.TTFont` data read by the scripts.
Absent tables (`OS/2`, `head`) are `Option.none`, which models the
`except`-caught `KeyError`; an absent `usWeightClass` attribute models the
`getattr` default. -/

/-- The OS/2 table fields the scripts read. -/
structure OS2Table where
  usWeightClass : Option Int
  fsSelection : Nat
  deriving DecidableEq

/-- The head table field the scripts read. -/
structure HeadTable where
  macStyle : Nat
  deriving DecidableEq

/-- One `name`-table record; `text = none` models a record whose bytes do
not decode (`UnicodeDecodeError`). -/
structure NameRecord where
  nameID : Int
  text : Option String
  deriving DecidableEq

/-- The parts of a parsed font that the scripts inspect. -/
structure Font where
  os2 : Option OS2Table
  head : Option HeadTable
  nameRecords : List NameRecord
  hasCFF : Bool
  hasCFF2 : Bool
  features : List String
  deriving DecidableEq

/-! ## normalize_font_names.py -/

/-- Embedding of `is_italic` (normalize_font_names.py:32): OS/2 `fsSelection` bit 0,
falling through to `head.macStyle` bit 1, else `False`. -/
def is_italic (font : Font) : Bool :=
  (match font.os2 with
   | some t => t.fsSelection.testBit 0
   | none => false) ||
  (match font.head with
   | some h => h.macStyle.testBit 1
   | none => false)

/-- Embedding of `is_bold` (normalize_font_names.py:50): OS/2 `fsSelection` bit 5, or
`usWeightClass >= 700` (default 400), else `False`. -/
def is_bold (font : Font) : Bool :=
  (match font.os2 with
   | some t => t.fsSelection.testBit 5
   | none => false) ||
  (match font.os2 with
   | some t => decide ((700 : Int) ≤ t.usWeightClass.getD 400)
   | none => false)

/-- The `bins` table of `weight_to_name` (normalize_font_names.py:68). -/
def bins : List (Int × String) :=
  [(100, "Thin"), (200, "ExtraLight"), (300, "Light"), (400, "Regular"),
   (500, "Medium"), (600, "SemiBold"), (700, "Bold"), (800, "ExtraBold"),
   (900, "Black")]

/-- Embedding of `weight_to_name` (normalize_font_names.py:66): clamp below 100 and above
900, otherwise Python's `min(bins, key=lambda b: abs(b[0] - weight))`, which
scans left to right and keeps the earlier entry on ties. -/
def weight_to_name (weight : Int) : String :=
  if weight ≤ 100 then "Thin"
  else if 900 ≤ weight then "Black"
  else
    (bins.tail.foldl
      (fun best c => if (c.1 - weight).natAbs < (best.1 - weight).natAbs then c else best)
      bins.headI).2

/-- The naming steps of `derive_style_name` after `weight_name` is computed
(normalize_font_names.py:102-109). -/
def resolveFromName (weight_name : String) (italic : Bool) : String × String :=
  let human := if weight_name ≠ "Regular" ∨ italic = true then weight_name else "Regular"
  let ps := if weight_name ≠ "Regular" ∨ italic = true then stripSpaces weight_name else "Regular"
  let human' := if italic then pyStrip (if human = "Regular" then "Regular Italic" else human ++ " Italic") else human
  let ps' := if italic then pyStrip (if ps = "Regular" then "Italic" else ps ++ "Italic") else ps
  (human', ps')

/-- The pure core of `derive_style_name` (normalize_font_names.py:100-109):
the spec's `StyleNameResolver.resolve(weightClass, isItalic)`. -/
def resolve (weight : Int) (italic : Bool) : String × String :=
  resolveFromName (weight_to_name weight) italic

/-- The `usWeightClass` extraction in `derive_style_name`
(normalize_font_names.py:93-96): `getattr(font["OS/2"], "usWeightClass", 400)`
with the surrounding `except` defaulting to 400. -/
def fontWeight (font : Font) : Int :=
  match font.os2 with
  | some t => t.usWeightClass.getD 400
  | none => 400

/-- Embedding of `derive_style_name` (normalize_font_names.py:88): extract weight and
italic flag, then resolve the style-name pair. -/
def derive_style_name (font : Font) : String × String :=
  resolve (fontWeight font) (is_italic font)

/-- Embedding of `determine_output_extension` (normalize_font_names.py:119 and
convert_woff2_to_ttf.py:24): ".otf" iff CFF/CFF2 outlines are present. -/
def determine_output_extension (font : Font) : String :=
  if font.hasCFF || font.hasCFF2 then ".otf" else ".ttf"

/-! ## convert_woff2_to_ttf.py weight scan -/

/-- The `weight_names` table of `extract_font_metadata`
(convert_woff2_to_ttf.py:66), in the order produced by
`sorted(weight_names.keys())`. -/
def weight_names_conv : List (Int × String) :=
  [(100, "Thin"), (200, "ExtraLight"), (250, "UltraLight"), (300, "Light"),
   (350, "SemiLight"), (400, "Regular"), (500, "Medium"), (600, "SemiBold"),
   (700, "Bold"), (800, "ExtraBold"), (900, "Black"), (950, "ExtraBlack")]

/-- The weight-name selection of `extract_font_metadata`
(convert_woff2_to_ttf.py:72-78): the first key of the ascending scan with
`weight_class <= w`, else `f"W{weight_class}"`. -/
def convWeightName (weight_class : Int) : String :=
  match weight_names_conv.find? (fun p => decide (weight_class ≤ p.1)) with
  | some p => p.2
  | none => "W" ++ intRepr weight_class


/-! ## Filename allocator

Embedding of the de-duplication loop in `normalize_font_names.main`
(normalize_font_names.py:209-223).  The Python dict `used_filenames` is an
association list; insertion appends, `+=` updates in place.  Each request is
the pair `(stem, ext)` with `stem = f"{ps_family}-{style_ps}"`, so that the
dict key is `base = stem ++ ext` and the de-duplicated name is
`f"{stem}-{count}{ext}"`, exactly as in the source. -/

/-- Python `base_filename in used_filenames` / `used_filenames[base_filename]`. -/
def lookupCount : List (String × Nat) → String → Option Nat
  | [], _ => none
  | (k, v) :: rest, key => if k = key then some v else lookupCount rest key

/-- Python `used_filenames[key] = n` on a present key (first occurrence wins,
matching `lookupCount`). -/
def setCount : List (String × Nat) → String → Nat → List (String × Nat)
  | [], _, _ => []
  | (k, v) :: rest, key, n =>
    if k = key then (k, n) :: rest else (k, v) :: setCount rest key n

/-- One iteration of the de-duplication block (normalize_font_names.py:218-223):
returns the chosen output filename and the updated dict. -/
def allocStep (used : List (String × Nat)) (stem ext : String) :
    String × List (String × Nat) :=
  let base := stem ++ ext
  match lookupCount used base with
  | none => (base, used ++ [(base, 1)])
  | some n => (stem ++ "-" ++ natRepr (n + 1) ++ ext, setCount used base (n + 1))

/-- The sequence of output filenames produced by running the de-duplication
block over a whole batch. -/
def allocRun (used : List (String × Nat)) : List (String × String) → List String
  | [] => []
  | p :: rest =>
    (allocStep used p.1 p.2).1 :: allocRun (allocStep used p.1 p.2).2 rest

/-- Specification view of a run: each request paired with the occurrence
count it receives. -/
def allocCounts (used : List (String × Nat)) : List (String × String) → List ((String × String) × Nat)
  | [] => []
  | p :: rest =>
    (p, (lookupCount used (p.1 ++ p.2)).getD 0 + 1) :: allocCounts (allocStep used p.1 p.2).2 rest

/-- The name the source builds for occurrence `k` of a request. -/
def outName (stem ext : String) (k : Nat) : String :=
  if k ≤ 1 then stem ++ ext else stem ++ "-" ++ natRepr k ++ ext

/-- Requests the de-duplication loop can actually receive: the stem
(`f"{ps_family}-{style_ps}"`) never ends in a decimal digit, because every
style name produced by `derive_style_name` ends in a letter, and the
extension comes from `determine_output_extension`. -/
def allocInputOk (p : String × String) : Prop :=
  (∀ c ∈ p.1.data.getLast?.toList, c.isDigit = false) ∧ (p.2 = ".ttf" ∨ p.2 = ".otf")

instance allocInputOkDec (p : String × String) : Decidable (allocInputOk p) :=
  inferInstanceAs (Decidable ((∀ c ∈ p.1.data.getLast?.toList, c.isDigit = false) ∧
    (p.2 = ".ttf" ∨ p.2 = ".otf")))

/-- States reachable by the loop: every recorded count is at least 1. -/
def goodState (used : List (String × Nat)) : Prop := ∀ q ∈ used, 1 ≤ q.2

theorem lookupCount_mem {used : List (String × Nat)} {key : String} {n : Nat}
    (h : lookupCount used key = some n) : (key, n) ∈ used := by
  induction used with
  | nil => simp [lookupCount] at h
  | cons q rest ih =>
    obtain ⟨k, v⟩ := q
    rw [lookupCount] at h
    by_cases hk : k = key
    · rw [if_pos hk] at h
      cases h
      subst hk
      exact List.mem_cons_self _ _
    · rw [if_neg hk] at h
      exact List.mem_cons_of_mem _ (ih h)

theorem mem_setCount {used : List (String × Nat)} {key : String} {n : Nat} {q : String × Nat}
    (h : q ∈ setCount used key n) : q ∈ used ∨ q = (key, n) := by
  induction used with
  | nil => simp [setCount] at h
  | cons r rest ih =>
    obtain ⟨k, v⟩ := r
    rw [setCount] at h
    by_cases hk : k = key
    · rw [if_pos hk] at h
      rcases List.mem_cons.1 h with h | h
      · right; rw [h, hk]
      · left; exact List.mem_cons_of_mem _ h
    · rw [if_neg hk] at h
      rcases List.mem_cons.1 h with h | h
      · left; rw [h]; exact List.mem_cons_self _ _
      · rcases ih h with h' | h'
        · left; exact List.mem_cons_of_mem _ h'
        · right; exact h'

theorem lookupCount_append_single (used : List (String × Nat)) (b : String) (v : Nat)
    (key : String) :
    lookupCount (used ++ [(b, v)]) key =
      match lookupCount used key with
      | some n => some n
      | none => if b = key then some v else none := by
  induction used with
  | nil => simp [lookupCount]
  | cons q rest ih =>
    obtain ⟨k, w⟩ := q
    rw [List.cons_append, lookupCount, lookupCount]
    by_cases hk : k = key
    · rw [if_pos hk, if_pos hk]
    · rw [if_neg hk, if_neg hk, ih]

theorem lookupCount_setCount (used : List (String × Nat)) (b : String) (v : Nat)
    (key : String) :
    lookupCount (setCount used b v) key =
      if b = key then (lookupCount used b).map (fun _ => v)
      else lookupCount used key := by
  induction used with
  | nil => simp [lookupCount, setCount]
  | cons q rest ih =>
    obtain ⟨k, w⟩ := q
    by_cases hkb : k = b
    · subst hkb
      by_cases hkk : k = key
      · subst hkk
        simp [setCount, lookupCount]
      · have hbk : ¬ k = key := hkk
        simp [setCount, lookupCount, hbk]
    · by_cases hkk : k = key
      · subst hkk
        have hbk : ¬ b = k := fun h => hkb h.symm
        simp [setCount, lookupCount, hkb, hbk]
      · simp [setCount, lookupCount, hkb, hkk, ih]

theorem goodState_step {used : List (String × Nat)} (h : goodState used)
    (stem ext : String) : goodState (allocStep used stem ext).2 := by
  rw [allocStep]
  cases hl : lookupCount used (stem ++ ext) with
  | none =>
    intro q hq
    rcases List.mem_append.1 hq with hq | hq
    · exact h q hq
    · simp only [List.mem_singleton] at hq
      simp [hq]
  | some n =>
    intro q hq
    rcases mem_setCount hq with hq' | hq'
    · exact h q hq'
    · simp [hq']

theorem allocRun_eq_map_counts (inputs : List (String × String)) :
    ∀ used, goodState used →
      allocRun used inputs = (allocCounts used inputs).map (fun t => outName t.1.1 t.1.2 t.2) := by
  induction inputs with
  | nil => intro used _; rfl
  | cons p rest ih =>
    intro used hused
    rw [allocRun, allocCounts, List.map_cons]
    have hstate := goodState_step hused p.1 p.2
    rw [ih _ hstate]
    rcases hl : lookupCount used (p.1 ++ p.2) with _ | n
    · have hstep : (allocStep used p.1 p.2).1 = p.1 ++ p.2 := by
        rw [allocStep]
        simp [hl]
      rw [hstep]
      simp [outName]
    · have hn : 1 ≤ n := by
        have := hused _ (lookupCount_mem hl)
        exact this
      have hstep : (allocStep used p.1 p.2).1 = p.1 ++ "-" ++ natRepr (n + 1) ++ p.2 := by
        rw [allocStep]
        simp [hl]
      rw [hstep]
      have : ¬ n + 1 ≤ 1 := by omega
      simp [outName, this]

theorem allocCounts_lt (inputs : List (String × String)) :
    ∀ used p k, (p, k) ∈ allocCounts used inputs →
      (lookupCount used (p.1 ++ p.2)).getD 0 < k := by
  induction inputs with
  | nil => intro used p k h; simp [allocCounts] at h
  | cons q rest ih =>
    intro used p k h
    rw [allocCounts] at h
    rcases List.mem_cons.1 h with h | h
    · rw [Prod.mk.injEq] at h
      rcases h with ⟨rfl, rfl⟩
      omega
    · have hstep := ih (allocStep used q.1 q.2).2 p k h
      -- counts never decrease when the state is updated
      have hmono : (lookupCount used (p.1 ++ p.2)).getD 0 ≤
          (lookupCount (allocStep used q.1 q.2).2 (p.1 ++ p.2)).getD 0 := by
        rw [allocStep]
        rcases hl : lookupCount used (q.1 ++ q.2) with _ | n
        · simp only
          rw [lookupCount_append_single]
          rcases hp : lookupCount used (p.1 ++ p.2) with _ | m
          · simp
          · simp
        · simp only
          rw [lookupCount_setCount]
          by_cases hb : q.1 ++ q.2 = p.1 ++ p.2
        
          · rw [if_pos hb, ← hb, hl]
            simp
          · rw [if_neg hb]
      omega

theorem allocCounts_key_nodup (inputs : List (String × String)) :
    ∀ used, ((allocCounts used inputs).map (fun t => (t.1.1 ++ t.1.2, t.2))).Nodup := by
  induction inputs with
  | nil => intro used; simp [allocCounts]
  | cons q rest ih =>
    intro used
    rw [allocCounts, List.map_cons, List.nodup_cons]
    refine ⟨?_, ih _⟩
    intro hmem
    rw [List.mem_map] at hmem
    obtain ⟨⟨p, k⟩, hpk, heq⟩ := hmem
    rw [Prod.mk.injEq] at heq
    obtain ⟨hbase, hcount⟩ := heq
    have hlt := allocCounts_lt rest (allocStep used q.1 q.2).2 p k hpk
    -- after the step, the count stored for the stepped key is exactly the
    -- count just emitted
    have hkey : lookupCount (allocStep used q.1 q.2).2 (q.1 ++ q.2) =
        some ((lookupCount used (q.1 ++ q.2)).getD 0 + 1) := by
      rw [allocStep]
      rcases hl : lookupCount used (q.1 ++ q.2) with _ | n
      · simp only
        rw [lookupCount_append_single, hl]
        simp
      · simp only
        rw [lookupCount_setCount, if_pos rfl, hl]
        simp
    rw [hbase, hkey] at hlt
    simp at hlt
    omega

theorem allocCounts_mem (inputs : List (String × String)) :
    ∀ used p k, (p, k) ∈ allocCounts used inputs → p ∈ inputs ∧ 1 ≤ k := by
  induction inputs with
  | nil => intro used p k h; simp [allocCounts] at h
  | cons q rest ih =>
    intro used p k h
    rw [allocCounts] at h
    rcases List.mem_cons.1 h with h | h
    · rw [Prod.mk.injEq] at h
      rcases h with ⟨rfl, rfl⟩
      exact ⟨List.mem_cons_self _ _, by omega⟩
    · have := ih _ p k h
      exact ⟨List.mem_cons_of_mem _ this.1, this.2⟩

/-! ## String facts for filename injectivity -/

theorem stringDataAppend (s t : String) : (s ++ t).data = s.data ++ t.data := by
  cases s; cases t; rfl

theorem extLen {e : String} (he : e = ".ttf" ∨ e = ".otf") : e.data.length = 4 := by
  rcases he with rfl | rfl <;> rfl

/-- Splitting two equal strings at the first hyphen: if neither prefix
contains a hyphen, prefixes and suffixes agree. -/
theorem splitAtHyphen (a : List Char) :
    ∀ b r1 r2, '-' ∉ a → '-' ∉ b → a ++ '-' :: r1 = b ++ '-' :: r2 →
      a = b ∧ r1 = r2 := by
  induction a with
  | nil =>
    intro b r1 r2 _ hb h
    cases b with
    | nil =>
      simp only [List.nil_append, List.cons.injEq] at h
      exact ⟨rfl, h.2⟩
    | cons c bs =>
      simp only [List.nil_append, List.cons_append] at h
      cases h
      simp at hb
  | cons c as ih =>
    intro b r1 r2 ha hb h
    cases b with
    | nil =>
      simp only [List.cons_append, List.nil_append] at h
      cases h
      simp at ha
    | cons d bs =>
      simp only [List.cons_append, List.cons.injEq] at h
      obtain ⟨rfl, h⟩ := h
      have ha' : '-' ∉ as := fun hmem => ha (List.mem_cons_of_mem _ hmem)
      have hb' : '-' ∉ bs := fun hmem => hb (List.mem_cons_of_mem _ hmem)
      obtain ⟨rfl, hr⟩ := ih bs r1 r2 ha' hb' h
      exact ⟨rfl, hr⟩

theorem hyphen_data : "-".data = ['-'] := rfl

theorem toDecDigits_digit (fuel : Nat) :
    ∀ n c, c ∈ toDecDigits fuel n → c.isDigit = true := by
  induction fuel with
  | zero => intro n c hc; simp [toDecDigits] at hc
  | succ fuel ih =>
    intro n c hc
    have hdig : ∀ m, m < 10 → (Nat.digitChar m).isDigit = true := by decide
    by_cases h10 : n < 10
    · simp only [toDecDigits, if_pos h10, List.mem_singleton] at hc
      subst hc
      exact hdig n h10
    · simp only [toDecDigits, if_neg h10, List.mem_append, List.mem_singleton] at hc
      rcases hc with hc | hc
      · exact ih (n / 10) c hc
      · subst hc
        exact hdig (n % 10) (Nat.mod_lt n (by omega))

theorem toDecDigits_ne_nil (fuel n : Nat) (h : 0 < fuel) : toDecDigits fuel n ≠ [] := by
  cases fuel with
  | zero => omega
  | succ fuel =>
    rw [toDecDigits]
    by_cases h10 : n < 10
    · simp [h10]
    · simp [h10]

theorem natRepr_data_ne_nil (n : Nat) : (natRepr n).data ≠ [] :=
  toDecDigits_ne_nil (n + 1) n (by omega)

theorem natRepr_rev_no_hyphen (n : Nat) : '-' ∉ (natRepr n).data.reverse := by
  rw [List.mem_reverse]
  exact natRepr_no_hyphen n

theorem outName_inj {s1 e1 s2 e2 : String} {k1 k2 : Nat}
    (h1 : allocInputOk (s1, e1)) (h2 : allocInputOk (s2, e2))
    (hk1 : 1 ≤ k1) (hk2 : 1 ≤ k2)
    (h : outName s1 e1 k1 = outName s2 e2 k2) :
    s1 = s2 ∧ e1 = e2 ∧ k1 = k2 := by
  obtain ⟨hs1, he1⟩ := h1
  obtain ⟨hs2, he2⟩ := h2
  have hlen : e1.data.length = e2.data.length := (extLen he1).trans (extLen he2).symm
  rw [outName, outName] at h
  by_cases hc1 : k1 ≤ 1 <;> by_cases hc2 : k2 ≤ 1
  · rw [if_pos hc1, if_pos hc2] at h
    have hd := congrArg String.data h
    rw [stringDataAppend, stringDataAppend] at hd
    obtain ⟨hs, he⟩ := List.append_inj' hd hlen
    exact ⟨String.ext hs, String.ext he, by omega⟩
  · rw [if_pos hc1, if_neg hc2] at h
    have hd := congrArg String.data h
    simp only [stringDataAppend, hyphen_data] at hd
    obtain ⟨hs, _⟩ := List.append_inj' hd hlen
    exfalso
    obtain ⟨c, hc⟩ := Option.isSome_iff_exists.1
      (List.getLast?_isSome.2 (natRepr_data_ne_nil k2))
    have hlast : s1.data.getLast? = some c := by
      rw [hs, List.getLast?_append, List.getLast?_append, hc]
      rfl
    have hdig : c.isDigit = true :=
      toDecDigits_digit (k2 + 1) k2 c (List.mem_of_mem_getLast? hc)
    have := hs1 c (by rw [hlast]; simp)
    rw [this] at hdig
    exact Bool.false_ne_true hdig
  · rw [if_neg hc1, if_pos hc2] at h
    have hd := congrArg String.data h
    simp only [stringDataAppend, hyphen_data] at hd
    obtain ⟨hs, _⟩ := List.append_inj' hd hlen
    exfalso
    obtain ⟨c, hc⟩ := Option.isSome_iff_exists.1
      (List.getLast?_isSome.2 (natRepr_data_ne_nil k1))
    have hlast : s2.data.getLast? = some c := by
      rw [← hs, List.getLast?_append, List.getLast?_append, hc]
      rfl
    have hdig : c.isDigit = true :=
      toDecDigits_digit (k1 + 1) k1 c (List.mem_of_mem_getLast? hc)
    have := hs2 c (by rw [hlast]; simp)
    rw [this] at hdig
    exact Bool.false_ne_true hdig
  · rw [if_neg hc1, if_neg hc2] at h
    have hd := congrArg String.data h
    simp only [stringDataAppend, hyphen_data] at hd
    obtain ⟨hs, he⟩ := List.append_inj' hd hlen
    have hrev := congrArg List.reverse hs
    simp only [List.reverse_append, List.reverse_singleton, List.singleton_append] at hrev
    obtain ⟨hr, hsd⟩ := splitAtHyphen (natRepr k1).data.reverse (natRepr k2).data.reverse
      _ _ (natRepr_rev_no_hyphen k1) (natRepr_rev_no_hyphen k2) hrev
    refine ⟨String.ext (List.reverse_inj.1 hsd), String.ext he, ?_⟩
    exact natRepr_injective (String.ext (List.reverse_inj.1 hr))

theorem baseDeterminesInput {p q : String × String} (hp : allocInputOk p) (hq : allocInputOk q)
    (h : p.1 ++ p.2 = q.1 ++ q.2) : p = q := by
  have hd := congrArg String.data h
  rw [stringDataAppend, stringDataAppend] at hd
  obtain ⟨hs, he⟩ := List.append_inj' hd ((extLen hp.2).trans (extLen hq.2).symm)
  exact Prod.ext (String.ext hs) (String.ext he)

theorem mapBaseInj :
    ∀ in1 in2 : List (String × String), (∀ p ∈ in1, allocInputOk p) →
      (∀ p ∈ in2, allocInputOk p) →
      in1.map (fun p => p.1 ++ p.2) = in2.map (fun p => p.1 ++ p.2) → in1 = in2 := by
  intro in1
  induction in1 with
  | nil =>
    intro in2 _ _ h
    cases in2 with
    | nil => rfl
    | cons q rest => simp at h
  | cons p rest1 ih =>
    intro in2 h1 h2 h
    cases in2 with
    | nil => simp at h
    | cons q rest2 =>
      simp only [List.map_cons, List.cons.injEq] at h
      have hpq := baseDeterminesInput (h1 p (List.mem_cons_self _ _))
        (h2 q (List.mem_cons_self _ _)) h.1
      rw [hpq, ih rest2 (fun r hr => h1 r (List.mem_cons_of_mem _ hr))
        (fun r hr => h2 r (List.mem_cons_of_mem _ hr)) h.2]

/-- Claim C2 (counterexample): over arbitrary base-name strings the
allocator is NOT injective: requesting base "A.ttf" twice and then base
"A-2.ttf" returns "A-2.ttf" twice, because the de-duplicated second output
coincides with the later base name. -/
theorem allocatorCollisionOnArbitraryBases :
    allocRun [] [("A", ".ttf"), ("A", ".ttf"), ("A-2", ".ttf")] =
      ["A.ttf", "A-2.ttf", "A-2.ttf"] ∧
    ¬ (allocRun [] [("A", ".ttf"), ("A", ".ttf"), ("A-2", ".ttf")]).Nodup := by
  constructor
  · decide
  · decide

/-- Claim C2 (amended): for every sequence of allocate requests whose stems
do not end in a decimal digit and whose extensions are ".ttf"/".otf" — and
`main` only produces such requests, since every style name ends in a
letter — the returned filename sequence is injective (pairwise distinct),
and it is a deterministic function of the requested base-name sequence. -/
theorem allocatorInjectiveOnCodeBases (inputs : List (String × String))
    (h : ∀ p ∈ inputs, allocInputOk p) :
    (allocRun [] inputs).Nodup ∧
    (∀ inputs2, (∀ p ∈ inputs2, allocInputOk p) →
      inputs.map (fun p => p.1 ++ p.2) = inputs2.map (fun p => p.1 ++ p.2) →
      allocRun [] inputs = allocRun [] inputs2) := by
  have hgood : goodState ([] : List (String × Nat)) := by
    intro q hq
    simp at hq
  constructor
  · rw [allocRun_eq_map_counts inputs [] hgood]
    have hkeys := allocCounts_key_nodup inputs []
    have hcounts : (allocCounts [] inputs).Nodup := List.Nodup.of_map _ hkeys
    refine List.Nodup.map_on ?_ hcounts
    intro x hx y hy hxy
    obtain ⟨⟨sx, ex⟩, kx⟩ := x
    obtain ⟨⟨sy, ey⟩, ky⟩ := y
    have hmx := allocCounts_mem inputs [] (sx, ex) kx hx
    have hmy := allocCounts_mem inputs [] (sy, ey) ky hy
    obtain ⟨hs, he, hk⟩ :=
      outName_inj (h _ hmx.1) (h _ hmy.1) hmx.2 hmy.2 hxy
    rw [hs, he, hk]
  · intro inputs2 h2 hmap
    rw [mapBaseInj inputs inputs2 h h2 hmap]

/-- Claim C2 (witness): a concrete constrained request sequence. -/
theorem allocatorInjectiveOnCodeBasesWitness :
    (allocRun [] [("Fam-Regular", ".ttf"), ("Fam-Bold", ".ttf"), ("Fam-Regular", ".ttf")]).Nodup :=
  (allocatorInjectiveOnCodeBases
    [("Fam-Regular", ".ttf"), ("Fam-Bold", ".ttf"), ("Fam-Regular", ".ttf")]
    (by decide)).1

/-- Claim C6: the first allocate call for a base name records count 1 and
returns the base name unchanged; each subsequent call for the same base name
increments the counter and returns the base with the counter inserted before
the extension; hence allocating "A.ttf" three times yields
["A.ttf","A-2.ttf","A-3.ttf"] and "A.ttf","B.ttf","A.ttf" yields
["A.ttf","B.ttf","A-2.ttf"]. -/
theorem allocatorStepBehavior :
    (∀ used stem ext, lookupCount used (stem ++ ext) = none →
      allocStep used stem ext = (stem ++ ext, used ++ [(stem ++ ext, 1)])) ∧
    (∀ used stem ext n, lookupCount used (stem ++ ext) = some n →
      allocStep used stem ext =
        (stem ++ "-" ++ natRepr (n + 1) ++ ext, setCount used (stem ++ ext) (n + 1))) ∧
    allocRun [] [("A", ".ttf"), ("A", ".ttf"), ("A", ".ttf")] =
      ["A.ttf", "A-2.ttf", "A-3.ttf"] ∧
    allocRun [] [("A", ".ttf"), ("B", ".ttf"), ("A", ".ttf")] =
      ["A.ttf", "B.ttf", "A-2.ttf"] := by
  refine ⟨?_, ?_, by decide, by decide⟩
  · intro used stem ext h
    rw [allocStep]
    simp [h]
  · intro used stem ext n h
    rw [allocStep]
    simp [h]

/-- Claim C6 (witness): a concrete first allocation and a concrete repeat
allocation. -/
theorem allocatorStepBehaviorWitness :
    allocStep [] "A" ".ttf" = ("A.ttf", [("A.ttf", 1)]) ∧
    allocStep [("A.ttf", 1)] "A" ".ttf" = ("A-2.ttf", [("A.ttf", 2)]) :=
  ⟨(allocatorStepBehavior.1 [] "A" ".ttf" (by decide)).trans (by decide),
   (allocatorStepBehavior.2.1 [("A.ttf", 1)] "A" ".ttf" 1 (by decide)).trans (by decide)⟩

/-! ## Weight bucket selection (C3, C4, C9, C10) -/

/-- The nearest-bin property claimed for the middle range: the returned name
belongs to the entry of minimum absolute distance, ties won by the lower
key. -/
def nearestProp (w : Int) : Prop :=
  ∃ p ∈ bins, weight_to_name w = p.2 ∧
    ∀ q ∈ bins, (p.1 - w).natAbs ≤ (q.1 - w).natAbs ∧
      ((q.1 - w).natAbs = (p.1 - w).natAbs → p.1 ≤ q.1)

instance nearestPropDec (w : Int) : Decidable (nearestProp w) :=
  inferInstanceAs (Decidable (∃ p ∈ bins, weight_to_name w = p.2 ∧
    ∀ q ∈ bins, (p.1 - w).natAbs ≤ (q.1 - w).natAbs ∧
      ((q.1 - w).natAbs = (p.1 - w).natAbs → p.1 ≤ q.1)))

set_option maxHeartbeats 2000000 in
set_option maxRecDepth 100000 in
theorem nearestMid : ∀ n : Fin 799, nearestProp (101 + (n.val : Int)) := by decide

/-- Claim C3: for every integer weightClass the resolver returns "Thin" when
weightClass ≤ 100, "Black" when weightClass ≥ 900, and otherwise the name of
the bins entry whose key is at minimum absolute distance from weightClass,
with exact ties won by the lower key; in particular 450 selects 400
("Regular"). -/
theorem weightBucketSelection (w : Int) :
    (w ≤ 100 → weight_to_name w = "Thin") ∧
    (900 ≤ w → weight_to_name w = "Black") ∧
    (100 < w → w < 900 → nearestProp w) ∧
    weight_to_name 450 = "Regular" := by
  refine ⟨?_, ?_, ?_, by decide⟩
  · intro h
    rw [weight_to_name, if_pos h]
  · intro h
    have h' : ¬ w ≤ 100 := by omega
    rw [weight_to_name, if_neg h', if_pos h]
  · intro h1 h2
    have hn : (w - 101).toNat < 799 := by omega
    have hmid := nearestMid ⟨(w - 101).toNat, hn⟩
    have heq : (101 : Int) + ((w - 101).toNat : Int) = w := by omega
    rwa [heq] at hmid

/-- Claim C3 (witness): the low clamp at 50, the high clamp at 1000, and the
tie at 450. -/
theorem weightBucketSelectionWitness :
    weight_to_name 50 = "Thin" ∧ weight_to_name 1000 = "Black" ∧ nearestProp 450 :=
  ⟨(weightBucketSelection 50).1 (by decide),
   (weightBucketSelection 1000).2.1 (by decide),
   (weightBucketSelection 450).2.2.1 (by decide) (by decide)⟩

/-- Claim C4: concrete resolve results, including the intentional
Regular/Italic asymmetry (human keeps "Regular", PostScript drops it). -/
theorem resolveConcreteValues :
    resolve 400 false = ("Regular", "Regular") ∧
    resolve 400 true = ("Regular Italic", "Italic") ∧
    resolve 700 false = ("Bold", "Bold") ∧
    resolve 700 true = ("Bold Italic", "BoldItalic") ∧
    resolve 100 true = ("Thin Italic", "ThinItalic") :=
  ⟨by decide, by decide, by decide, by decide, by decide⟩

/-- Claim C5: style-name resolution is a pure function of the derived
(weightClass, isItalic) pair — two fonts agreeing on those resolve to the
identical pair, whatever their other properties (bold bit, name records,
outline format, features). -/
theorem styleNamePurity (f g : Font)
    (hw : fontWeight f = fontWeight g) (hi : is_italic f = is_italic g) :
    derive_style_name f = derive_style_name g := by
  rw [derive_style_name, derive_style_name, hw, hi]

/-- Claim C5 (witness): two fonts sharing only weight 700 and the italic
bit — bold bit, head table, name records, outline format and feature list
all differ — resolve identically. -/
theorem styleNamePurityWitness :
    derive_style_name
      { os2 := some { usWeightClass := some 700, fsSelection := 1 },
        head := some { macStyle := 0 }, nameRecords := [],
        hasCFF := false, hasCFF2 := false, features := [] } =
    derive_style_name
      { os2 := some { usWeightClass := some 700, fsSelection := 33 },
        head := none, nameRecords := [{ nameID := 1, text := some "X" }],
        hasCFF := true, hasCFF2 := false, features := ["dlig"] } :=
  styleNamePurity _ _ (by decide) (by decide)

/-- The nine weight names of the normalize table. -/
def weightNames : List String :=
  ["Thin", "ExtraLight", "Light", "Regular", "Medium", "SemiBold", "Bold",
   "ExtraBold", "Black"]

theorem foldl_min_mem (w : Int) :
    ∀ (l : List (Int × String)) (b : Int × String),
      l.foldl (fun best c => if (c.1 - w).natAbs < (best.1 - w).natAbs then c else best) b
        ∈ b :: l := by
  intro l
  induction l with
  | nil => intro b; simp
  | cons c cs ih =>
    intro b
    rw [List.foldl_cons]
    rcases List.mem_cons.1 (ih (if (c.1 - w).natAbs < (b.1 - w).natAbs then c else b)) with h | h
    · rw [h]
      by_cases hc : (c.1 - w).natAbs < (b.1 - w).natAbs
      · rw [if_pos hc]
        exact List.mem_cons_of_mem _ (List.mem_cons_self _ _)
      · rw [if_neg hc]
        exact List.mem_cons_self _ _
    · exact List.mem_cons_of_mem _ (List.mem_cons_of_mem _ h)

theorem weight_to_name_mem (w : Int) : weight_to_name w ∈ weightNames := by
  rw [weight_to_name]
  by_cases h1 : w ≤ 100
  · rw [if_pos h1]
    decide
  · rw [if_neg h1]
    by_cases h2 : (900 : Int) ≤ w
    · rw [if_pos h2]
      decide
    · rw [if_neg h2]
      have hmem := foldl_min_mem w bins.tail bins.headI
      have hbins : bins.headI :: bins.tail = bins := rfl
      rw [hbins] at hmem
      have hsnd : ∀ p ∈ bins, p.2 ∈ weightNames := by decide
      exact hsnd _ hmem

/-- Claim C9: style-name resolution is total: for every integer weightClass
(negative, above 900, outside [1,1000] included) and every boolean isItalic
it returns a style-name pair with no error path — the weight bucket is
always one of the nine table names and both components are nonempty. -/
theorem resolveTotal (w : Int) (i : Bool) :
    weight_to_name w ∈ weightNames ∧ (resolve w i).1 ≠ "" ∧ (resolve w i).2 ≠ "" := by
  have hmem := weight_to_name_mem w
  refine ⟨hmem, ?_⟩
  simp only [weightNames, List.mem_cons, List.not_mem_nil, or_false] at hmem
  rcases hmem with h | h | h | h | h | h | h | h | h <;>
    rw [resolve, h] <;> cases i <;> exact ⟨by decide, by decide⟩

/-- Claim C10 (counterexample): the two weight-to-name derivations disagree:
at weightClass 150 convert_woff2_to_ttf picks "ExtraLight" (first table key
with 150 ≤ key) while normalize_font_names picks "Thin" (tie between 100 and
200 won by the lower key). -/
theorem weightDerivationsDisagree :
    convWeightName 150 = "ExtraLight" ∧ weight_to_name 150 = "Thin" ∧
    convWeightName 150 ≠ weight_to_name 150 :=
  ⟨by decide, by decide, by decide⟩

/-- Claim C10 (amended): the two derivations agree on the nine canonical
weights 100, 200, ..., 900 (but not on arbitrary integers). -/
theorem weightDerivationsAgreeOnCanonical (w : Int)
    (h : w ∈ [(100 : Int), 200, 300, 400, 500, 600, 700, 800, 900]) :
    convWeightName w = weight_to_name w := by
  fin_cases h <;> decide

/-- Claim C10 (witness): agreement at 400. -/
theorem weightDerivationsAgreeOnCanonicalWitness :
    convWeightName 400 = weight_to_name 400 :=
  weightDerivationsAgreeOnCanonical 400 (by decide)

/-! ## Batch runs (C1, C7, C8)

Shallow embedding of the two `main` entry points.  Filesystem and console
actions are recorded as an effect trace; whether `TTFont(path)` parses,
whether `font.save` raises, and whether the output path already exists are
data of the abstract input item. -/

/-- Observable side effects of a run. -/
inductive Effect where
  | printPlan (filename : String)
  | printMsg
  | mkdirE
  | writeE (filename : String)
  deriving DecidableEq

/-- How a run ends: a return code from `main`, or an uncaught exception. -/
inductive RunOutcome where
  | exit (code : Nat)
  | crash
  deriving DecidableEq

/-- One input file of normalize_font_names: its parse result (`none` models
a corrupt file on which `TTFont` raises), whether saving it would raise, and
whether its output path already exists. -/
structure NormItem where
  parse : Option Font
  saveFails : Bool
  outExists : Bool
  deriving DecidableEq

/-- The per-candidate loop of `normalize_font_names.main`
(normalize_font_names.py:210-231).  The precompute `TTFont(path)` on
line 212 is OUTSIDE any try/except, so a corrupt item ends the whole run
with an uncaught exception (`RunOutcome.crash`); everything inside
`normalize_one_font` (normalize_font_names.py:125-175) is guarded and turns
into a counted failure.  In dry-run mode `normalize_one_font` returns its
"Would write" message before `mkdir` and `save`. -/
def normLoop (family : String) (overwrite dryRun : Bool) :
    List NormItem → List (String × Nat) → Nat → Nat → List Effect →
      RunOutcome × Nat × Nat × List Effect
  | [], _used, succ, fail, acc =>
    (RunOutcome.exit (if fail = 0 then 0 else 2), succ, fail, acc)
  | item :: rest, used, succ, fail, acc =>
    match item.parse with
    | none => (RunOutcome.crash, succ, fail, acc)
    | some font =>
      let stem := stripSpaces family ++ "-" ++ (derive_style_name font).2
      let step := allocStep used stem (determine_output_extension font)
      if dryRun then
        normLoop family overwrite dryRun rest step.2 (succ + 1) fail
          (acc ++ [Effect.printPlan step.1])
      else if item.outExists && !overwrite then
        normLoop family overwrite dryRun rest step.2 succ (fail + 1)
          (acc ++ [Effect.mkdirE, Effect.printMsg])
      else if item.saveFails then
        normLoop family overwrite dryRun rest step.2 succ (fail + 1)
          (acc ++ [Effect.mkdirE, Effect.printMsg])
      else
        normLoop family overwrite dryRun rest step.2 (succ + 1) fail
          (acc ++ [Effect.mkdirE, Effect.writeE step.1, Effect.printMsg])

/-- Embedding of `normalize_font_names.main` (normalize_font_names.py:178-235): returns
the outcome, the success count, the failure count and the effect trace. -/
def normalize_main (srcOk : Bool) (items : List NormItem) (family : String)
    (overwrite dryRun : Bool) : RunOutcome × Nat × Nat × List Effect :=
  if !srcOk then (RunOutcome.exit 1, 0, 0, [])
  else if items.isEmpty then (RunOutcome.exit 1, 0, 0, [])
  else normLoop family overwrite dryRun items [] 0 0 []

/-- One input file of convert_woff2_to_ttf, same abstraction as `NormItem`. -/
structure ConvItem where
  parse : Option Font
  saveFails : Bool
  outExists : Bool
  deriving DecidableEq

/-- The conversion loop of `convert_woff2_to_ttf.main`
(convert_woff2_to_ttf.py:393-400): `convert_single_file`
(convert_woff2_to_ttf.py:217-277) wraps ALL its work in try/except, so a
corrupt file, an existing output without --overwrite, or a failing save each
count as one failure and the loop continues. -/
def convLoop (overwrite : Bool) : List ConvItem → Nat × Nat → Nat × Nat
  | [], counts => counts
  | item :: rest, (succ, fail) =>
    match item.parse with
    | none => convLoop overwrite rest (succ, fail + 1)
    | some _ =>
      if item.outExists && !overwrite then convLoop overwrite rest (succ, fail + 1)
      else if item.saveFails then convLoop overwrite rest (succ, fail + 1)
      else convLoop overwrite rest (succ + 1, fail)

/-- Embedding of `convert_woff2_to_ttf.main` (convert_woff2_to_ttf.py:280-447):
precondition exits, the dry-run branch (read-only, returns 0), the
conversion loop, and the optional collection step whose failure returns 2
regardless of the per-file counts. -/
def convert_main (srcOk : Bool) (items : List ConvItem)
    (overwrite dryRun createCollection collectionSaveFails : Bool) :
    RunOutcome × Nat × Nat :=
  if !srcOk then (RunOutcome.exit 1, 0, 0)
  else if items.isEmpty then (RunOutcome.exit 1, 0, 0)
  else if dryRun then (RunOutcome.exit 0, 0, 0)
  else
    let counts := convLoop overwrite items (0, 0)
    if createCollection && decide (0 < counts.1) && collectionSaveFails then
      (RunOutcome.exit 2, counts.1, counts.2)
    else
      (RunOutcome.exit (if counts.2 = 0 then 0 else 2), counts.1, counts.2)

/-- A font whose OS/2 table carries weight 400 and no style bits. -/
def plainFont : Font :=
  { os2 := some { usWeightClass := some 400, fsSelection := 0 },
    head := some { macStyle := 0 }, nameRecords := [],
    hasCFF := false, hasCFF2 := false, features := [] }

/-- A parseable, saveable normalize input. -/
def okNormItem : NormItem := { parse := some plainFont, saveFails := false, outExists := false }

/-- A corrupt normalize input: `TTFont` raises on it. -/
def badNormItem : NormItem := { parse := none, saveFails := false, outExists := false }

/-- A parseable, saveable convert input. -/
def okConvItem : ConvItem := { parse := some plainFont, saveFails := false, outExists := false }

/-- A corrupt convert input. -/
def badConvItem : ConvItem := { parse := none, saveFails := false, outExists := false }

/-- Claim C1 (code bug): per-item error isolation fails in
normalize_font_names.  On a batch of three inputs whose second is corrupt,
the unguarded `TTFont(path)` in main's filename-precompute loop
(normalize_font_names.py:212) raises, so the run crashes after one success
instead of reporting 2 successes, 1 failure and exit code 2.
convert_woff2_to_ttf, whose per-file work is entirely inside try/except,
does behave as the claim states on the same batch shape. -/
theorem normalizeCrashOnCorruptBatch :
    (normalize_main true [okNormItem, badNormItem, okNormItem] "Fam" false false).1 =
      RunOutcome.crash ∧
    (normalize_main true [okNormItem, badNormItem, okNormItem] "Fam" false false).2.1 = 1 ∧
    convert_main true [okConvItem, badConvItem, okConvItem] false false false false =
      (RunOutcome.exit 2, 2, 1) :=
  ⟨by decide, by decide, by decide⟩

/-- Claim C8 (code bug): in dry-run mode normalize_font_names writes no file
and creates no directory, and prints the planned action (with the derived
output filename) for a parseable input — but a corrupt input crashes the
dry run, so later inputs get no planned action: on inputs [ok, corrupt] the
trace holds exactly the plan for the first input and the run crashes. -/
theorem dryRunCrashNoWrites :
    (normalize_main true [okNormItem, badNormItem] "Fam" false true).1 = RunOutcome.crash ∧
    (normalize_main true [okNormItem, badNormItem] "Fam" false true).2.2.2 =
      [Effect.printPlan "Fam-Regular.ttf"] ∧
    (∀ e ∈ (normalize_main true [okNormItem, badNormItem] "Fam" false true).2.2.2,
      e ≠ Effect.mkdirE ∧ ∀ s, e ≠ Effect.writeE s) := by
  refine ⟨by decide, by decide, ?_⟩
  intro e he
  have htr : (normalize_main true [okNormItem, badNormItem] "Fam" false true).2.2.2 =
      [Effect.printPlan "Fam-Regular.ttf"] := by decide
  rw [htr] at he
  simp only [List.mem_singleton] at he
  subst he
  exact ⟨by decide, fun s h => Effect.noConfusion h⟩

/-- A normalize input whose per-file operation succeeds: it parses, and
(except in dry-run, which always reports success for parseable files) it
saves without raising and without an unoverwritable existing output. -/
def normItemSucceeds (overwrite dryRun : Bool) (item : NormItem) : Prop :=
  item.parse.isSome = true ∧
    (dryRun = true ∨
      (item.saveFails = false ∧ (item.outExists = false ∨ overwrite = true)))

instance normItemSucceedsDec (overwrite dryRun : Bool) (item : NormItem) :
    Decidable (normItemSucceeds overwrite dryRun item) :=
  inferInstanceAs (Decidable (item.parse.isSome = true ∧
    (dryRun = true ∨
      (item.saveFails = false ∧ (item.outExists = false ∨ overwrite = true)))))

theorem normLoop_exit_by_failures (family : String) (ow dr : Bool) :
    ∀ (items : List NormItem), (∀ it ∈ items, it.parse.isSome = true) →
      ∀ used succ fail acc,
        (normLoop family ow dr items used succ fail acc).1 =
          RunOutcome.exit
            (if (normLoop family ow dr items used succ fail acc).2.2.1 = 0 then 0 else 2) := by
  intro items
  induction items with
  | nil => intro _ used succ fail acc; rfl
  | cons item rest ih =>
    intro h used succ fail acc
    have hp : item.parse.isSome = true := h item (List.mem_cons_self _ _)
    have hrest := fun it hit => h it (List.mem_cons_of_mem _ hit)
    cases hparse : item.parse with
    | none => rw [hparse] at hp; simp at hp
    | some font =>
      simp only [normLoop, hparse]
      by_cases h1 : dr = true
      · rw [if_pos h1]
        exact ih hrest _ _ _ _
      · rw [if_neg h1]
        by_cases h2 : (item.outExists && !ow) = true
        · rw [if_pos h2]
          exact ih hrest _ _ _ _
        · rw [if_neg h2]
          by_cases h3 : item.saveFails = true
          · rw [if_pos h3]
            exact ih hrest _ _ _ _
          · rw [if_neg h3]
            exact ih hrest _ _ _ _

theorem normLoop_no_failures (family : String) (ow dr : Bool) :
    ∀ (items : List NormItem), (∀ it ∈ items, normItemSucceeds ow dr it) →
      ∀ used succ fail acc,
        (normLoop family ow dr items used succ fail acc).2.2.1 = fail := by
  intro items
  induction items with
  | nil => intro _ used succ fail acc; rfl
  | cons item rest ih =>
    intro h used succ fail acc
    obtain ⟨hp, hgood⟩ := h item (List.mem_cons_self _ _)
    have hrest := fun it hit => h it (List.mem_cons_of_mem _ hit)
    cases hparse : item.parse with
    | none => rw [hparse] at hp; simp at hp
    | some font =>
      simp only [normLoop, hparse]
      split_ifs with h1 h2 h3
      · exact ih hrest _ _ _ _
      · exfalso
        rcases hgood with hdr | ⟨hsf, hoe⟩
        · exact h1 hdr
        · rcases hoe with hoe | how
          · rw [hoe] at h2
            simp at h2
          · rw [how] at h2
            simp at h2
      · exfalso
        rcases hgood with hdr | ⟨hsf, _⟩
        · exact h1 hdr
        · rw [hsf] at h3
          simp at h3
      · exact ih hrest _ _ _ _

/-- Claim C7 (counterexample): a convert_woff2_to_ttf run in which input
files were found and every per-file operation succeeded (1 success, 0
failures) still exits 2 rather than 0 when --create-collection is set and
saving the collection fails (convert_woff2_to_ttf.py:443-445). -/
theorem convertCollectionFailureExitCode :
    convert_main true [okConvItem] false false true true = (RunOutcome.exit 2, 1, 0) ∧
    RunOutcome.exit 2 ≠ RunOutcome.exit 0 :=
  ⟨by decide, by decide⟩

theorem convert_main_run (c : ConvItem) (rest : List ConvItem) (ow2 cc cf : Bool) :
    convert_main true (c :: rest) ow2 false cc cf =
      if cc && decide (0 < (convLoop ow2 (c :: rest) (0, 0)).1) && cf then
        (RunOutcome.exit 2, (convLoop ow2 (c :: rest) (0, 0)).1,
          (convLoop ow2 (c :: rest) (0, 0)).2)
      else
        (RunOutcome.exit (if (convLoop ow2 (c :: rest) (0, 0)).2 = 0 then 0 else 2),
          (convLoop ow2 (c :: rest) (0, 0)).1, (convLoop ow2 (c :: rest) (0, 0)).2) := rfl

/-- Claim C7 (amended): both mains return 1 on precondition failure (missing
source directory or no input files) before any per-file work; they return 0
when input files were found and every per-file operation succeeded —
provided, for convert_woff2_to_ttf, that no requested collection creation
failed — and they return 2 when input files were found and either one or
more per-file operations failed (or were skipped) while the batch
continued, or the requested collection creation failed. -/
theorem exitCodePolicy (items : List NormItem) (citems : List ConvItem)
    (family : String) (ow dr ow2 dr2 cc cf : Bool) :
    (normalize_main false items family ow dr = (RunOutcome.exit 1, 0, 0, [])) ∧
    (normalize_main true [] family ow dr = (RunOutcome.exit 1, 0, 0, [])) ∧
    (items ≠ [] → (∀ it ∈ items, normItemSucceeds ow dr it) →
      (normalize_main true items family ow dr).1 = RunOutcome.exit 0) ∧
    (items ≠ [] → (∀ it ∈ items, it.parse.isSome = true) →
      0 < (normalize_main true items family ow dr).2.2.1 →
      (normalize_main true items family ow dr).1 = RunOutcome.exit 2) ∧
    (convert_main false citems ow2 dr2 cc cf = (RunOutcome.exit 1, 0, 0)) ∧
    (convert_main true [] ow2 dr2 cc cf = (RunOutcome.exit 1, 0, 0)) ∧
    (citems ≠ [] → dr2 = true →
      (convert_main true citems ow2 dr2 cc cf).1 = RunOutcome.exit 0) ∧
    (citems ≠ [] → dr2 = false →
      ((convLoop ow2 citems (0, 0)).2 = 0 →
        (cc = false ∨ (convLoop ow2 citems (0, 0)).1 = 0 ∨ cf = false) →
        (convert_main true citems ow2 dr2 cc cf).1 = RunOutcome.exit 0) ∧
      (0 < (convLoop ow2 citems (0, 0)).2 →
        (convert_main true citems ow2 dr2 cc cf).1 = RunOutcome.exit 2) ∧
      (cc = true → 0 < (convLoop ow2 citems (0, 0)).1 → cf = true →
        (convert_main true citems ow2 dr2 cc cf).1 = RunOutcome.exit 2)) := by
  refine ⟨by simp [normalize_main], by simp [normalize_main], ?_, ?_,
    by simp [convert_main], by simp [convert_main], ?_, ?_⟩
  · intro hne hall
    obtain ⟨it, rest, rfl⟩ := List.exists_cons_of_ne_nil hne
    have hparse : ∀ x ∈ it :: rest, x.parse.isSome = true := fun x hx => (hall x hx).1
    have hmain : normalize_main true (it :: rest) family ow dr =
        normLoop family ow dr (it :: rest) [] 0 0 [] := rfl
    rw [hmain, normLoop_exit_by_failures family ow dr _ hparse,
      normLoop_no_failures family ow dr _ hall]
    rfl
  · intro hne hparse hfail
    obtain ⟨it, rest, rfl⟩ := List.exists_cons_of_ne_nil hne
    have hmain : normalize_main true (it :: rest) family ow dr =
        normLoop family ow dr (it :: rest) [] 0 0 [] := rfl
    rw [hmain] at hfail ⊢
    rw [normLoop_exit_by_failures family ow dr _ hparse]
    have hne0 : ¬ (normLoop family ow dr (it :: rest) [] 0 0 []).2.2.1 = 0 := by omega
    rw [if_neg hne0]
  · intro hne hdr2
    obtain ⟨c, rest, rfl⟩ := List.exists_cons_of_ne_nil hne
    subst hdr2
    rfl
  · intro hne hdr2
    obtain ⟨c, rest, rfl⟩ := List.exists_cons_of_ne_nil hne
    subst hdr2
    refine ⟨?_, ?_, ?_⟩
    · intro h0 hdisj
      have htrig : (cc && decide (0 < (convLoop ow2 (c :: rest) (0, 0)).1) && cf) = false := by
        rcases hdisj with h | h | h
        · simp [h]
        · rw [h]
          simp
        · simp [h]
      rw [convert_main_run, htrig, if_neg (fun hff => Bool.false_ne_true hff)]
      show RunOutcome.exit (if (convLoop ow2 (c :: rest) (0, 0)).2 = 0 then 0 else 2) =
        RunOutcome.exit 0
      rw [if_pos h0]
    · intro hfail
      have hne0 : ¬ (convLoop ow2 (c :: rest) (0, 0)).2 = 0 := by omega
      rw [convert_main_run]
      by_cases htrig : (cc && decide (0 < (convLoop ow2 (c :: rest) (0, 0)).1) && cf) = true
      · rw [if_pos htrig]
      · rw [if_neg htrig]
        show RunOutcome.exit (if (convLoop ow2 (c :: rest) (0, 0)).2 = 0 then 0 else 2) =
          RunOutcome.exit 2
        rw [if_neg hne0]
    · intro hcc hs hcf
      have htrig : (cc && decide (0 < (convLoop ow2 (c :: rest) (0, 0)).1) && cf) = true := by
        rw [hcc, hcf]
        simp only [Bool.true_and, Bool.and_true]
        exact decide_eq_true hs
      rw [convert_main_run, if_pos htrig]

/-- Claim C7 (witness): concrete runs exercising each exit code — a missing
source directory, an empty batch, an all-success batch (exit 0), a batch
with one skip (exit 2), a dry run, and the collection-failure exit. -/
theorem exitCodePolicyWitness :
    (normalize_main true [okNormItem] "Fam" false false).1 = RunOutcome.exit 0 ∧
    (normalize_main true [okNormItem, { parse := some plainFont, saveFails := true, outExists := false }]
      "Fam" false false).1 = RunOutcome.exit 2 ∧
    normalize_main false [okNormItem] "Fam" false false = (RunOutcome.exit 1, 0, 0, []) ∧
    convert_main true [] false false false false = (RunOutcome.exit 1, 0, 0) ∧
    (convert_main true [okConvItem] false true false false).1 = RunOutcome.exit 0 ∧
    (convert_main true [okConvItem] false false true true).1 = RunOutcome.exit 2 := by
  have h := exitCodePolicy
    [okNormItem, { parse := some plainFont, saveFails := true, outExists := false }]
    [okConvItem] "Fam" false false false false true true
  have h2 := exitCodePolicy [okNormItem] [okConvItem] "Fam" false false false true true true
  refine ⟨?_, ?_, ?_, ?_, ?_, ?_⟩
  · exact (exitCodePolicy [okNormItem] [okConvItem] "Fam" false false false false false false).2.2.1
      (by decide) (by decide)
  · exact h.2.2.2.1 (by decide) (by decide) (by decide)
  · exact (exitCodePolicy [okNormItem] [okConvItem] "Fam" false false false false false false).1
  · exact (exitCodePolicy [okNormItem] [] "Fam" false false false false false false).2.2.2.2.2.1
  · exact h2.2.2.2.2.2.2.1 (by decide) rfl
  · exact (h.2.2.2.2.2.2.2 (by decide) rfl).2.2 rfl (by decide) rfl
